import Mathlib

set_option maxHeartbeats 1000000

/-!
Shallow embedding of the source-file crawler in `crawler.py`
(class `PythonCodeWalker` and the helper `get_concatenated_files_to_analyze`).

Modelling conventions:
* Paths and file contents are strings; the byte offsets of the syntax tree
  are modelled as character indices into the decoded content.
* The filesystem is a finite association list from path to file data;
  `os.path.exists` is modelled as a successful lookup.
* The path functions `os.path.join`, `os.path.dirname`, `os.path.abspath`
  and `os.path.normpath` are embedded from their posixpath definitions,
  working on the character list underlying a string.
* The third-party parser is an injected dependency: each file of the
  modelled filesystem carries either a parse failure message (an exception
  raised while reading or parsing the file) or its syntax-tree root.
* The `while files_to_process:` loop runs one iteration per `stepOnce`;
  `crawlSteps` iterates it with explicit fuel, and `walk_directory`
  supplies a fuel bound that is proved sufficient.
-/

namespace Crawler

/-- Embedding of posixpath.isabs on character lists: a path is absolute
when it begins with the separator. -/
def isabsL : List Char → Bool
  | [] => false
  | c :: _ => c == '/'

/-- Embedding of posixpath.isabs. -/
def isabs (s : String) : Bool := isabsL s.data

/-- Embedding of posixpath.join restricted to two arguments, on character
lists: if the second part is absolute it replaces the first, otherwise the
parts are glued with a separator unless the first part is empty or already
ends with one. -/
def pjoinL (a b : List Char) : List Char :=
  if isabsL b then b
  else if a = [] then a ++ b
  else if a.getLast? = some '/' then a ++ b
  else a ++ '/' :: b

/-- Embedding of os.path.join (posixpath.join) for two arguments. -/
def pjoin (a b : String) : String := String.mk (pjoinL a.data b.data)

/-- Character list of the head segment of posixpath.dirname: everything up
to and including the last separator (the source computes it with rfind). -/
def dirHeadL (p : List Char) : List Char :=
  (p.reverse.dropWhile (fun c => c != '/')).reverse

/-- Embedding of posixpath.dirname on character lists.  The head keeps its
trailing separators stripped unless it consists of separators only; the
emptiness test of the source is subsumed by the any-test, since an empty
head has no non-separator character. -/
def dirnameL (p : List Char) : List Char :=
  let head := dirHeadL p
  if head.any (fun c => c != '/') then
    (head.reverse.dropWhile (fun c => c == '/')).reverse
  else head

/-- Embedding of os.path.dirname (posixpath.dirname). -/
def dirname (p : String) : String := String.mk (dirnameL p.data)

/-- Number of leading separators posixpath.normpath preserves: two for a
path starting with exactly two separators, one for any other absolute
path, zero otherwise. -/
def initialSlashesL (p : List Char) : Nat :=
  if isabsL p then
    if p.take 2 = ['/', '/'] ∧ ¬ p.take 3 = ['/', '/', '/'] then 2 else 1
  else 0

/-- Embedding of str.split on the separator character: the list of
maximal (possibly empty) separator-free chunks. -/
def splitSlashL : List Char → List (List Char)
  | [] => [[]]
  | c :: cs =>
    match splitSlashL cs with
    | [] => [[c]]
    | g :: gs => if c = '/' then [] :: g :: gs else (c :: g) :: gs

/-- Component normalisation loop of posixpath.normpath: drop empty and
dot components, and let a dot-dot component cancel a preceding ordinary
component except at the start of a relative path or after an uncancelled
dot-dot. -/
def normCompsL (initSlashes : Nat) (comps : List (List Char)) : List (List Char) :=
  comps.foldl (fun acc comp =>
    if comp = [] ∨ comp = ['.'] then acc
    else if ¬ comp = ['.', '.'] ∨ (initSlashes = 0 ∧ acc = []) ∨
        acc.getLast? = some ['.', '.'] then acc ++ [comp]
    else if ¬ acc = [] then acc.dropLast
    else acc) []

/-- Embedding of posixpath.normpath on character lists. -/
def normpathL (p : List Char) : List Char :=
  if p = [] then ['.']
  else
    let n := initialSlashesL p
    let comps := normCompsL n (splitSlashL p)
    let joined := List.replicate n '/' ++ List.intercalate ['/'] comps
    if joined = [] then ['.'] else joined

/-- Embedding of os.path.normpath (posixpath.normpath). -/
def normpath (p : String) : String := String.mk (normpathL p.data)

/-- Embedding of os.path.abspath with the working directory passed
explicitly: normpath of the join of the working directory and the path. -/
def abspath (cwd p : String) : String := normpath (pjoin cwd p)

/-- Replacement of every module-path separator (dot) by the directory
separator, as in imp.replace(dot, os.sep). -/
def replaceDotL (l : List Char) : List Char :=
  l.map (fun c => if c = '.' then '/' else c)

/-- Embedding of str.endswith for a suffix string. -/
def strEndsWith (s suf : String) : Bool := List.isSuffixOf suf.data s.data

/-- Syntax-tree node produced by the injected parser: node type, start
byte, end byte, start row (zero-based) and children, mirroring the fields
of a tree-sitter node that the source reads. -/
inductive Node : Type where
  | mk : String → Nat → Nat → Nat → List Node → Node

/-- Node type tag. -/
def Node.ty : Node → String
  | Node.mk t _ _ _ _ => t

/-- Start offset of the node in the source. -/
def Node.startByte : Node → Nat
  | Node.mk _ s _ _ _ => s

/-- End offset of the node in the source. -/
def Node.endByte : Node → Nat
  | Node.mk _ _ e _ _ => e

/-- Zero-based start row of the node, as in node.start_point[0]. -/
def Node.startRow : Node → Nat
  | Node.mk _ _ _ r _ => r

/-- Children of the node. -/
def Node.children : Node → List Node
  | Node.mk _ _ _ _ cs => cs

/-- Text of a node: the slice source_code[start_byte:end_byte]. -/
def nodeText (src : List Char) (n : Node) : String :=
  String.mk ((src.drop n.startByte).take (n.endByte - n.startByte))

mutual

/-- Embedding of the inner walk_imports closure of extract_imports, with
the mutable imports list threaded as an accumulator: an import statement
appends the text of every direct dotted_name child, a from-import
statement appends only the first dotted_name child (the break of the
source loop), and then every child is walked recursively. -/
def walk_imports (src : List Char) (n : Node) (imports : List String) : List String :=
  match n with
  | Node.mk ty _s _e _r cs =>
    let imports :=
      if ty = "import_statement" then
        cs.foldl (fun acc c =>
          if c.ty == "dotted_name" then acc ++ [nodeText src c] else acc) imports
      else if ty = "import_from_statement" then
        match cs.find? (fun c => c.ty == "dotted_name") with
        | some c => imports ++ [nodeText src c]
        | none => imports
      else imports
    walkImportsChildren src cs imports

/-- Recursive walk of walk_imports over a child list. -/
def walkImportsChildren (src : List Char) (cs : List Node) (imports : List String) : List String :=
  match cs with
  | [] => imports
  | c :: rest => walkImportsChildren src rest (walk_imports src c imports)

end

/-- Embedding of PythonCodeWalker.extract_imports: the walk starts with an
empty imports list. -/
def extract_imports (src : List Char) (n : Node) : List String :=
  walk_imports src n []

/-- Function descriptor collected by find_function_definitions. -/
structure FuncInfo where
  name : String
  parameters : List String
  line : Nat
  deriving DecidableEq, Repr

mutual

/-- Embedding of the inner walk_functions closure of
find_function_definitions, with the mutable functions list threaded as an
accumulator: a function_definition node with an identifier child yields a
descriptor whose parameters are the identifier children of its parameters
child and whose line is the start row plus one; every child is then
walked recursively. -/
def walkFunctions (src : List Char) (n : Node) (functions : List FuncInfo) : List FuncInfo :=
  match n with
  | Node.mk ty _s _e row cs =>
    let functions :=
      if ty = "function_definition" then
        match cs.find? (fun c => c.ty == "identifier") with
        | some nameNode =>
          let params :=
            match cs.find? (fun c => c.ty == "parameters") with
            | some paramsNode =>
              (paramsNode.children.filter (fun c => c.ty == "identifier")).map (nodeText src)
            | none => []
          functions ++ [⟨nodeText src nameNode, params, row + 1⟩]
        | none => functions
      else functions
    walkFunChildren src cs functions

/-- Recursive walk of walkFunctions over a child list. -/
def walkFunChildren (src : List Char) (cs : List Node) (functions : List FuncInfo) : List FuncInfo :=
  match cs with
  | [] => functions
  | c :: rest => walkFunChildren src rest (walkFunctions src c functions)

end

/-- Embedding of PythonCodeWalker.find_function_definitions. -/
def find_function_definitions (src : List Char) (n : Node) : List FuncInfo :=
  walkFunctions src n []

/-- One file of the modelled filesystem: the outcome of parse_file (a
raised exception message, or the syntax-tree root) together with the raw
content that the byte read of the source returns. -/
structure PyFile where
  parse : Except String Node
  content : String

/-- Modelled filesystem: finite association list from path to file. -/
abbrev FS : Type := List (String × PyFile)

/-- Embedding of os.path.exists over the modelled filesystem. -/
def pathExists (fs : FS) (p : String) : Bool :=
  (List.lookup p fs).isSome

/-- Value stored in the crawl result for one path: the success record of
the source (imports, functions, size, lines) or the error record. -/
inductive Entry : Type where
  | success : List String → List FuncInfo → Nat → Nat → Entry
  | error : String → Entry
  deriving DecidableEq, Repr

/-- Embedding of a Python dict assignment on an insertion-ordered
association list: an existing key keeps its position and gets the new
value, a fresh key is appended. -/
def dictInsert (d : List (String × Entry)) (k : String) (v : Entry) : List (String × Entry) :=
  if d.any (fun kv => kv.1 == k) then
    d.map (fun kv => if kv.1 == k then (k, v) else kv)
  else d ++ [(k, v)]

/-- State of the walk_directory loop: visited_files, files_to_process and
the result dict. -/
structure CrawlState where
  visited : List String
  queue : List String
  result : List (String × Entry)
  deriving DecidableEq, Repr

/-- Candidate resolution paths for one import, in the order of the
possible_paths list of the source: base directory and current directory,
each with the dot-converted module path and with the raw name plus
suffix. -/
def possiblePaths (base cur imp : String) : List String :=
  [ pjoin base (String.mk (replaceDotL imp.data) ++ ".py"),
    pjoin (dirname cur) (String.mk (replaceDotL imp.data) ++ ".py"),
    pjoin base (imp ++ ".py"),
    pjoin (dirname cur) (imp ++ ".py") ]

/-- First candidate path that exists and is not visited, mirroring the
for loop with break over possible_paths. -/
def resolveImport (fs : FS) (visited : List String) (base cur imp : String) : Option String :=
  (possiblePaths base cur imp).find?
    (fun q => pathExists fs q && decide (¬ q ∈ visited))

/-- One iteration of the walk_directory while loop: dequeue, skip if
visited, mark visited, skip silently if the path does not exist or lacks
the source suffix, and otherwise either record the parse failure or
record the success entry and enqueue the resolution of each import. -/
def stepOnce (fs : FS) (base : String) (st : CrawlState) : CrawlState :=
  match st.queue with
  | [] => st
  | p :: rest =>
    if p ∈ st.visited then { st with queue := rest }
    else
      match List.lookup p fs with
      | none => { visited := p :: st.visited, queue := rest, result := st.result }
      | some pf =>
        if strEndsWith p ".py" then
          match pf.parse with
          | Except.error msg =>
            { visited := p :: st.visited, queue := rest,
              result := dictInsert st.result p (Entry.error msg) }
          | Except.ok root =>
            { visited := p :: st.visited,
              queue := rest ++ (extract_imports pf.content.data root).filterMap
                (resolveImport fs (p :: st.visited) base p),
              result := dictInsert st.result p
                (Entry.success (extract_imports pf.content.data root)
                  (find_function_definitions pf.content.data root)
                  pf.content.length
                  (pf.content.data.count '\n' + 1)) }
        else { visited := p :: st.visited, queue := rest, result := st.result }

/-- Fueled iteration of the while loop: the loop exits with the result
dict when the queue is empty, and the fuel only limits the number of
iterations. -/
def crawlSteps (fs : FS) (base : String) : Nat → CrawlState → Option (List (String × Entry))
  | 0, st => if st.queue.isEmpty then some st.result else none
  | n + 1, st =>
    if st.queue.isEmpty then some st.result
    else crawlSteps fs base n (stepOnce fs base st)

/-- Number of imports a file contributes when processed. -/
def importsLenOf (pf : PyFile) : Nat :=
  match pf.parse with
  | Except.ok root => (extract_imports pf.content.data root).length
  | Except.error _ => 0

/-- Largest number of imports of any file of the filesystem. -/
def maxImports (fs : FS) : Nat :=
  fs.foldr (fun e m => max (importsLenOf e.2) m) 0

/-- Number of filesystem paths not yet visited. -/
def unvisitedCount (fs : FS) (visited : List String) : Nat :=
  ((fs.map Prod.fst).filter (fun q => decide (¬ q ∈ visited))).length

/-- Termination measure of the crawl loop: the queue length plus a
weighted count of the unvisited filesystem paths. -/
def mu (fs : FS) (st : CrawlState) : Nat :=
  st.queue.length + (maxImports fs + 1) * unvisitedCount fs st.visited

/-- Base directory of a crawl: the given one, or the directory of the
absolute seed path when none is given. -/
def baseOf (cwd start : String) (bd : Option String) : String :=
  match bd with
  | some b => b
  | none => dirname (abspath cwd start)

/-- Initial loop state: no visited files, the joined seed path as the
only pending file, an empty result. -/
def initState (base start : String) : CrawlState :=
  { visited := [], queue := [pjoin base start], result := [] }

/-- Embedding of PythonCodeWalker.walk_directory before discarding the
fuel: the loop is run with a fuel that the termination theorem proves
sufficient. -/
def walk_directory_opt (fs : FS) (cwd start : String) (bd : Option String) :
    Option (List (String × Entry)) :=
  let base := baseOf cwd start bd
  let st := initState base start
  crawlSteps fs base (mu fs st + 1) st

/-- Embedding of PythonCodeWalker.walk_directory. -/
def walk_directory (fs : FS) (cwd start : String) (bd : Option String) :
    List (String × Entry) :=
  (walk_directory_opt fs cwd start bd).getD []

/-- Embedding of the formatting loop of get_concatenated_files_to_analyze
with the mutable files list threaded as a foldl accumulator: an error
entry is skipped, a success entry whose path still exists contributes a
labeled block of the re-read content. -/
def formatBlocks (fs : FS) (results : List (String × Entry)) : List String :=
  results.foldl (fun files pe =>
    match pe.2 with
    | Entry.error _ => files
    | Entry.success _ _ _ _ =>
      match List.lookup pe.1 fs with
      | some pf => files ++ ["## " ++ pe.1 ++ "\n" ++ pf.content]
      | none => files) []

/-- Join of the collected blocks with the blank-line separator, as in the
final join of get_concatenated_files_to_analyze.  The filesystem is a
parameter because the content is re-read at formatting time. -/
def formatResult (fs : FS) (results : List (String × Entry)) : String :=
  String.intercalate "\n\n" (formatBlocks fs results)

/-- Embedding of get_concatenated_files_to_analyze. -/
def get_concatenated_files_to_analyze (fs : FS) (cwd start : String) (bd : Option String) :
    String :=
  formatResult fs (walk_directory fs cwd start bd)

/-- Specification-side pre-order collection, written from the words of
the Import Extractor contract, for comparison with walk_imports: the
modules collected at the node itself, followed by the collections of the
children in order. -/
def ownImports (src : List Char) (ty : String) (cs : List Node) : List String :=
  if ty = "import_statement" then
    (cs.filter (fun c => c.ty == "dotted_name")).map (nodeText src)
  else if ty = "import_from_statement" then
    match cs.find? (fun c => c.ty == "dotted_name") with
    | some c => [nodeText src c]
    | none => []
  else []

mutual

/-- Specification-side import extraction: document-order traversal with
the per-node collection of ownImports. -/
def importsSpec (src : List Char) (n : Node) : List String :=
  match n with
  | Node.mk ty _s _e _r cs => ownImports src ty cs ++ importsSpecChildren src cs

/-- Specification-side import extraction over a child list. -/
def importsSpecChildren (src : List Char) (cs : List Node) : List String :=
  match cs with
  | [] => []
  | c :: rest => importsSpec src c ++ importsSpecChildren src rest

end

/-- Specification-side block of one result entry, written from the words
of the Concatenation Formatter contract: an error entry yields no block,
a success entry yields the labeled block of the re-read content when the
path still exists. -/
def blockOf (fs : FS) (pe : String × Entry) : Option String :=
  match pe.2 with
  | Entry.error _ => none
  | Entry.success _ _ _ _ =>
    match List.lookup pe.1 fs with
    | some pf => some ("## " ++ pe.1 ++ "\n" ++ pf.content)
    | none => none

/-- Syntax tree of the content "import b". -/
def treeImpB : Node :=
  Node.mk "module" 0 8 0
    [Node.mk "import_statement" 0 8 0
      [Node.mk "import" 0 6 0 [], Node.mk "dotted_name" 7 8 0 []]]

/-- Syntax tree of the content "import a". -/
def treeImpA : Node :=
  Node.mk "module" 0 8 0
    [Node.mk "import_statement" 0 8 0
      [Node.mk "import" 0 6 0 [], Node.mk "dotted_name" 7 8 0 []]]

/-- Syntax tree of a five-character module with no statements of
interest. -/
def treePlain5 : Node := Node.mk "module" 0 5 0 []

/-- Two-file cyclic filesystem: each file imports the other. -/
def fsCycle : FS :=
  [("/r/a.py", ⟨Except.ok treeImpB, "import b"⟩),
   ("/r/b.py", ⟨Except.ok treeImpA, "import a"⟩)]

/-- Expected crawl result of fsCycle: each file once, in visitation
order. -/
def cycleResult : List (String × Entry) :=
  [("/r/a.py", Entry.success ["b"] [] 8 1),
   ("/r/b.py", Entry.success ["a"] [] 8 1)]

/-- Syntax tree of the content "import b\nfrom c import X": the
from-import statement carries two dotted_name children, the source module
and the imported symbol. -/
def treeA5 : Node :=
  Node.mk "module" 0 24 0
    [Node.mk "import_statement" 0 8 0
      [Node.mk "import" 0 6 0 [], Node.mk "dotted_name" 7 8 0 []],
     Node.mk "import_from_statement" 9 24 1
      [Node.mk "from" 9 13 1 [], Node.mk "dotted_name" 14 15 1 [],
       Node.mk "import" 16 22 1 [], Node.mk "dotted_name" 23 24 1 []]]

/-- Three-file filesystem of the formatter scenario: the seed imports b
with a plain import and c with a from-import. -/
def fs5 : FS :=
  [("/r/a.py", ⟨Except.ok treeA5, "import b\nfrom c import X"⟩),
   ("/r/b.py", ⟨Except.ok treePlain5, "B = 1"⟩),
   ("/r/c.py", ⟨Except.ok treePlain5, "C = 1"⟩)]

/-- Expected crawl result of fs5. -/
def result5 : List (String × Entry) :=
  [("/r/a.py", Entry.success ["b", "c"] [] 24 2),
   ("/r/b.py", Entry.success [] [] 5 1),
   ("/r/c.py", Entry.success [] [] 5 1)]

/-- Expected formatted output of fs5. -/
def out5 : String :=
  "## /r/a.py\nimport b\nfrom c import X\n\n## /r/b.py\nB = 1\n\n## /r/c.py\nC = 1"

/-- Syntax tree of the content "import x\nimport x.py". -/
def treeA1 : Node :=
  Node.mk "module" 0 20 0
    [Node.mk "import_statement" 0 8 0
      [Node.mk "import" 0 6 0 [], Node.mk "dotted_name" 7 8 0 []],
     Node.mk "import_statement" 9 20 1
      [Node.mk "import" 9 15 1 [], Node.mk "dotted_name" 16 20 1 []]]

/-- Filesystem where the seed imports the module x, whose resolved path
x.py coincides with the text of a second, unresolvable import. -/
def fs1 : FS :=
  [("a.py", ⟨Except.ok treeA1, "import x\nimport x.py"⟩),
   ("x.py", ⟨Except.ok treePlain5, "X = 1"⟩)]

/-- Syntax tree of the content "import b\nimport b". -/
def treeA8 : Node :=
  Node.mk "module" 0 17 0
    [Node.mk "import_statement" 0 8 0
      [Node.mk "import" 0 6 0 [], Node.mk "dotted_name" 7 8 0 []],
     Node.mk "import_statement" 9 17 1
      [Node.mk "import" 9 15 1 [], Node.mk "dotted_name" 16 17 1 []]]

/-- Filesystem whose seed imports the same module twice, so the resolved
path is enqueued twice. -/
def fs8 : FS :=
  [("/r/a.py", ⟨Except.ok treeA8, "import b\nimport b"⟩),
   ("/r/b.py", ⟨Except.ok treePlain5, "B = 1"⟩)]

/-- Filesystem with a single file whose parse raises. -/
def fs2 : FS :=
  [("bad.py", ⟨Except.error "ParseError: invalid syntax", "@@"⟩)]

/-- Two-file filesystem used for the crawl of the vanished-file
scenario. -/
def fs10 : FS :=
  [("/r/a.py", ⟨Except.ok treeImpB, "import b"⟩),
   ("/r/b.py", ⟨Except.ok treePlain5, "B = 1"⟩)]

/-- The same filesystem after b vanished between crawl and format. -/
def fs10gone : FS :=
  [("/r/a.py", ⟨Except.ok treeImpB, "import b"⟩)]

/-- Syntax tree of the content "import a, b\nfrom a import x": a
plain-import statement with two dotted_name children followed by a
from-import statement repeating an already imported module. -/
def treeC6 : Node :=
  Node.mk "module" 0 27 0
    [Node.mk "import_statement" 0 11 0
      [Node.mk "import" 0 6 0 [], Node.mk "dotted_name" 7 8 0 [],
       Node.mk "," 8 9 0 [], Node.mk "dotted_name" 10 11 0 []],
     Node.mk "import_from_statement" 12 27 1
      [Node.mk "from" 12 16 1 [], Node.mk "dotted_name" 17 18 1 [],
       Node.mk "import" 19 25 1 [], Node.mk "dotted_name" 26 27 1 []]]

/-- Content matching treeC6. -/
def contentC6 : String := "import a, b\nfrom a import x"

/-- Content of the seed file of the candidate-order scenario. -/
def aOrderContent : String := "import m\nimport p.q"

/-- Syntax tree of the content "import m\nimport p.q". -/
def treeAOrder : Node :=
  Node.mk "module" 0 19 0
    [Node.mk "import_statement" 0 8 0
      [Node.mk "import" 0 6 0 [], Node.mk "dotted_name" 7 8 0 []],
     Node.mk "import_statement" 9 19 1
      [Node.mk "import" 9 15 1 [], Node.mk "dotted_name" 16 19 1 []]]

/-- File record of the seed of the candidate-order scenario. -/
def pfAOrder : PyFile := ⟨Except.ok treeAOrder, aOrderContent⟩

/-- Syntax tree of a six-character module with no statements of
interest. -/
def treePlain6 : Node := Node.mk "module" 0 6 0 []

/-- Filesystem discriminating the candidate order: for the import m both
the base-directory candidate /r/m.py and the current-directory candidate
/r/sub/m.py exist, and for the import p.q both the dot-converted
candidate /r/p/q.py and the raw-name candidate /r/p.q.py exist, so the
crawl must pick the first eligible candidate of each list. -/
def fsOrder : FS :=
  [("/r/sub/a.py", pfAOrder),
   ("/r/m.py", ⟨Except.ok treePlain6, "M1 = 0"⟩),
   ("/r/sub/m.py", ⟨Except.ok treePlain6, "M2 = 0"⟩),
   ("/r/p/q.py", ⟨Except.ok treePlain6, "PQ = 0"⟩),
   ("/r/p.q.py", ⟨Except.ok treePlain6, "RW = 0"⟩)]

/-- Expected crawl result of fsOrder: the seed and then the winning first
candidates, in order; the losing eligible candidates are absent. -/
def resultOrder : List (String × Entry) :=
  [("/r/sub/a.py", Entry.success ["m", "p.q"] [] 19 2),
   ("/r/m.py", Entry.success [] [] 6 1),
   ("/r/p/q.py", Entry.success [] [] 6 1)]

end Crawler

namespace Crawler

/-- A successful lookup witnesses membership of the key-value pair. -/
theorem lookup_mem {beta : Type} {l : List (String × beta)} {k : String} {v : beta}
    (h : List.lookup k l = some v) : (k, v) ∈ l := by
  rcases List.lookup_eq_some_iff.mp h with ⟨l1, l2, rfl, -⟩
  exact List.mem_append.mpr (Or.inr (List.mem_cons_self _ _))

/-- Every file of the filesystem contributes at most maxImports imports
when processed. -/
theorem importsLenOf_le_maxImports {fs : FS} {e : String × PyFile} (h : e ∈ fs) :
    importsLenOf e.2 ≤ maxImports fs := by
  induction fs with
  | nil => simp at h
  | cons a t ih =>
    rcases List.mem_cons.mp h with rfl | hm
    · simp only [maxImports, List.foldr_cons]
      exact le_max_left _ _
    · simp only [maxImports, List.foldr_cons]
      exact le_trans (ih hm) (le_max_right _ _)

/-- Filtering with a stronger predicate keeps at most as many elements. -/
theorem length_filter_mono {alpha : Type} (l : List alpha) (P Q : alpha → Bool)
    (h : ∀ a, P a = true → Q a = true) :
    (l.filter P).length ≤ (l.filter Q).length := by
  induction l with
  | nil => simp
  | cons a t ih =>
    rw [List.filter_cons, List.filter_cons]
    by_cases hP : P a = true
    · rw [if_pos hP, if_pos (h a hP)]
      simpa using ih
    · rw [if_neg hP]
      split
      · simp only [List.length_cons]
        omega
      · exact ih

/-- Filtering with a stronger predicate loses at least one element when
some member satisfies only the weaker predicate. -/
theorem length_filter_lt {alpha : Type} (l : List alpha) (P Q : alpha → Bool)
    (h : ∀ a, P a = true → Q a = true) (x : alpha) (hx : x ∈ l)
    (hPx : P x = false) (hQx : Q x = true) :
    (l.filter P).length < (l.filter Q).length := by
  induction l with
  | nil => simp at hx
  | cons a t ih =>
    rw [List.filter_cons, List.filter_cons]
    rcases List.mem_cons.mp hx with rfl | hm
    · rw [if_neg (by simp [hPx]), if_pos hQx]
      simp only [List.length_cons]
      exact Nat.lt_succ_of_le (length_filter_mono t P Q h)
    · by_cases hP : P a = true
      · rw [if_pos hP, if_pos (h a hP)]
        simp only [List.length_cons]
        exact Nat.succ_lt_succ (ih hm)
      · rw [if_neg hP]
        split
        · simp only [List.length_cons]
          exact Nat.lt_succ_of_lt (ih hm)
        · exact ih hm

/-- Marking one more path visited cannot increase the unvisited count. -/
theorem unvisitedCount_cons_le (fs : FS) (p : String) (v : List String) :
    unvisitedCount fs (p :: v) ≤ unvisitedCount fs v := by
  apply length_filter_mono
  intro a ha
  simp only [decide_eq_true_eq] at ha ⊢
  intro hav
  exact ha (List.mem_cons_of_mem _ hav)

/-- Marking an unvisited filesystem path visited strictly decreases the
unvisited count. -/
theorem unvisitedCount_cons_lt (fs : FS) {p : String} (v : List String)
    (hmem : p ∈ fs.map Prod.fst) (hnv : ¬ p ∈ v) :
    unvisitedCount fs (p :: v) < unvisitedCount fs v := by
  refine length_filter_lt (fs.map Prod.fst) _ _ ?_ p hmem ?_ ?_
  · intro a ha
    simp only [decide_eq_true_eq] at ha ⊢
    intro hav
    exact ha (List.mem_cons_of_mem _ hav)
  · simp
  · simpa using hnv

/-- Dict assignment at a fresh key appends the pair at the end. -/
theorem dictInsert_fresh (d : List (String × Entry)) (k : String) (v : Entry)
    (h : ¬ k ∈ d.map Prod.fst) : dictInsert d k v = d ++ [(k, v)] := by
  rw [dictInsert, if_neg]
  intro hc
  rcases List.any_eq_true.mp hc with ⟨kv, hm, he⟩
  exact h (List.mem_map.mpr ⟨kv, hm, by simpa using he⟩)

/-- Every loop iteration with a non-empty queue strictly decreases the
termination measure. -/
theorem mu_decreases (fs : FS) (base : String) (st : CrawlState) (h : st.queue ≠ []) :
    mu fs (stepOnce fs base st) < mu fs st := by
  obtain ⟨v, q, res⟩ := st
  cases q with
  | nil => exact absurd rfl h
  | cons p rest =>
    by_cases hv : p ∈ v
    · simp only [stepOnce, if_pos hv, mu, List.length_cons]
      omega
    · have hle : (maxImports fs + 1) * unvisitedCount fs (p :: v) ≤
          (maxImports fs + 1) * unvisitedCount fs v :=
        Nat.mul_le_mul_left _ (unvisitedCount_cons_le fs p v)
      cases hl : List.lookup p fs with
      | none =>
        simp only [stepOnce, if_neg hv, hl, mu, List.length_cons]
        omega
      | some pf =>
        cases hpy : strEndsWith p ".py" with
        | false =>
          simp only [stepOnce, if_neg hv, hl, hpy, Bool.false_eq_true, if_false, mu,
            List.length_cons]
          omega
        | true =>
          cases hparse : pf.parse with
          | error msg =>
            simp only [stepOnce, if_neg hv, hl, hpy, if_true, hparse, mu, List.length_cons]
            omega
          | ok root =>
            have hmem : (p, pf) ∈ fs := lookup_mem hl
            have hpmem : p ∈ fs.map Prod.fst := List.mem_map.mpr ⟨(p, pf), hmem, rfl⟩
            have hu : unvisitedCount fs (p :: v) < unvisitedCount fs v :=
              unvisitedCount_cons_lt fs v hpmem hv
            have himp : (extract_imports pf.content.data root).length ≤ maxImports fs := by
              have h1 := importsLenOf_le_maxImports hmem
              simpa [importsLenOf, hparse] using h1
            have happ : ((extract_imports pf.content.data root).filterMap
                (resolveImport fs (p :: v) base p)).length ≤ maxImports fs :=
              le_trans (List.length_filterMap_le _ _) himp
            have hmul : (maxImports fs + 1) * unvisitedCount fs (p :: v) +
                (maxImports fs + 1) ≤ (maxImports fs + 1) * unvisitedCount fs v := by
              have h2 := Nat.mul_le_mul_left (maxImports fs + 1) (Nat.succ_le_of_lt hu)
              simpa [Nat.mul_succ] using h2
            simp only [stepOnce, if_neg hv, hl, hpy, if_true, hparse, mu, List.length_cons,
              List.length_append]
            omega

/-- Any fuel exceeding the measure lets the loop run to completion. -/
theorem crawlSteps_isSome (fs : FS) (base : String) :
    ∀ (n : Nat) (st : CrawlState), mu fs st < n →
      (crawlSteps fs base n st).isSome = true := by
  intro n
  induction n with
  | zero => intro st hst; omega
  | succ n ih =>
    intro st hst
    rw [crawlSteps]
    cases he : st.queue.isEmpty with
    | true => simp
    | false =>
      simp only [Bool.false_eq_true, if_false]
      apply ih
      have hq : st.queue ≠ [] := List.isEmpty_eq_false.mp he
      exact lt_of_lt_of_le (mu_decreases fs base st hq) (Nat.lt_succ_iff.mp hst)

/-- Completing runs are stable under extra fuel. -/
theorem crawlSteps_succ (fs : FS) (base : String) :
    ∀ (n : Nat) (st : CrawlState) (r : List (String × Entry)),
      crawlSteps fs base n st = some r → crawlSteps fs base (n + 1) st = some r := by
  intro n
  induction n with
  | zero =>
    intro st r hst
    rw [crawlSteps] at hst
    rw [crawlSteps]
    cases he : st.queue.isEmpty with
    | true => simpa [he] using hst
    | false => simp [he] at hst
  | succ n ih =>
    intro st r hst
    rw [crawlSteps] at hst
    rw [crawlSteps]
    cases he : st.queue.isEmpty with
    | true => simpa [he] using hst
    | false =>
      simp only [he, Bool.false_eq_true, if_false] at hst ⊢
      exact ih _ _ hst

/-- Completing runs are stable under any amount of extra fuel. -/
theorem crawlSteps_le (fs : FS) (base : String) (n m : Nat) (st : CrawlState)
    (r : List (String × Entry)) (hnm : n ≤ m)
    (h : crawlSteps fs base n st = some r) : crawlSteps fs base m st = some r := by
  induction hnm with
  | refl => exact h
  | step _ ih => exact crawlSteps_succ fs base _ st r ih

end Crawler

namespace Crawler

/-- Size of a node is positive. -/
theorem node_sizeOf_pos (n : Node) : 0 < sizeOf n := by
  cases n
  simp only [Node.mk.sizeOf_spec]
  omega

/-- Size of a node list is positive. -/
theorem list_sizeOf_pos (cs : List Node) : 0 < sizeOf cs := by
  cases cs with
  | nil => simp
  | cons c rest =>
    simp only [List.cons.sizeOf_spec]
    omega

/-- The appending loop over the children of an import statement collects
exactly the texts of the dotted_name children, in order, after the
accumulator. -/
theorem foldl_dotted (src : List Char) (cs : List Node) :
    ∀ acc : List String,
      cs.foldl (fun acc c =>
        if c.ty == "dotted_name" then acc ++ [nodeText src c] else acc) acc
      = acc ++ (cs.filter (fun c => c.ty == "dotted_name")).map (nodeText src) := by
  induction cs with
  | nil => intro acc; simp
  | cons c rest ih =>
    intro acc
    rw [List.foldl_cons, List.filter_cons]
    by_cases hc : (c.ty == "dotted_name") = true
    · rw [if_pos hc, if_pos hc, ih]
      simp
    · rw [if_neg hc, if_neg hc, ih]

/-- Accumulator-threaded import walk against the specification-side
collection, proved for every node and child list below a size bound. -/
theorem walk_imports_aux (src : List Char) :
    ∀ k : Nat,
      (∀ n : Node, sizeOf n ≤ k → ∀ acc : List String,
        walk_imports src n acc = acc ++ importsSpec src n) ∧
      (∀ cs : List Node, sizeOf cs ≤ k → ∀ acc : List String,
        walkImportsChildren src cs acc = acc ++ importsSpecChildren src cs) := by
  intro k
  induction k with
  | zero =>
    constructor
    · intro n hn
      exact absurd hn (by have := node_sizeOf_pos n; omega)
    · intro cs hcs
      exact absurd hcs (by have := list_sizeOf_pos cs; omega)
  | succ k ih =>
    constructor
    · intro n hn acc
      obtain ⟨ty, s, e, r, cs⟩ := n
      simp only [Node.mk.sizeOf_spec] at hn
      have hcs : sizeOf cs ≤ k := by omega
      rw [walk_imports, importsSpec]
      rw [ih.2 cs hcs]
      have hown : (if ty = "import_statement" then
            cs.foldl (fun acc c =>
              if c.ty == "dotted_name" then acc ++ [nodeText src c] else acc) acc
          else if ty = "import_from_statement" then
            match cs.find? (fun c => c.ty == "dotted_name") with
            | some c => acc ++ [nodeText src c]
            | none => acc
          else acc) = acc ++ ownImports src ty cs := by
        rw [ownImports]
        by_cases h1 : ty = "import_statement"
        · rw [if_pos h1, if_pos h1, foldl_dotted]
        · rw [if_neg h1, if_neg h1]
          by_cases h2 : ty = "import_from_statement"
          · rw [if_pos h2, if_pos h2]
            cases cs.find? (fun c => c.ty == "dotted_name") <;> simp
          · rw [if_neg h2, if_neg h2]
            simp
      rw [hown, List.append_assoc]
    · intro cs hcs acc
      cases cs with
      | nil =>
        rw [walkImportsChildren, importsSpecChildren]
        simp
      | cons c rest =>
        simp only [List.cons.sizeOf_spec] at hcs
        have hc : sizeOf c ≤ k := by omega
        have hrest : sizeOf rest ≤ k := by omega
        rw [walkImportsChildren, importsSpecChildren]
        rw [ih.2 rest hrest, ih.1 c hc, List.append_assoc]

/-- Absoluteness of a cons list is decided by its head. -/
theorem isabsL_cons {c : Char} {t : List Char} : isabsL (c :: t) = (c == '/') := rfl

/-- Appending preserves absoluteness. -/
theorem isabsL_append {a b : List Char} (h : isabsL a = true) :
    isabsL (a ++ b) = true := by
  cases a with
  | nil => simp [isabsL] at h
  | cons c t => simpa [isabsL] using h

/-- Joining onto an absolute first part yields an absolute path. -/
theorem pjoinL_abs_left {a b : List Char} (h : isabsL a = true) :
    isabsL (pjoinL a b) = true := by
  rw [pjoinL]
  by_cases hb : isabsL b = true
  · rw [if_pos hb]
    exact hb
  · rw [if_neg hb]
    by_cases ha : a = []
    · rw [ha] at h
      simp [isabsL] at h
    · rw [if_neg ha]
      by_cases hg : a.getLast? = some '/'
      · rw [if_pos hg]
        exact isabsL_append h
      · rw [if_neg hg]
        exact isabsL_append h

/-- Joining an absolute second part discards the first part. -/
theorem pjoinL_abs_right {a b : List Char} (h : isabsL b = true) :
    pjoinL a b = b := by
  rw [pjoinL, if_pos h]

/-- Dropping a prefix cannot erase an element that fails the predicate. -/
theorem dropWhile_ne_nil_of_mem {alpha : Type} (P : alpha → Bool) {l : List alpha} {x : alpha}
    (hx : x ∈ l) (hPx : P x = false) : l.dropWhile P ≠ [] := by
  induction l with
  | nil => simp at hx
  | cons a t ih =>
    rw [List.dropWhile_cons]
    split
    · next hPa =>
      rcases List.mem_cons.mp hx with rfl | hm
      · rw [hPa] at hPx
        exact absurd hPx (by simp)
      · exact ih hm
    · simp

/-- The dirname head of an absolute path is absolute and non-empty. -/
theorem dirHeadL_abs {p : List Char} (h : isabsL p = true) :
    isabsL (dirHeadL p) = true ∧ dirHeadL p ≠ [] := by
  cases p with
  | nil => simp [isabsL] at h
  | cons c t =>
    have hc : c = '/' := by simpa [isabsL] using h
    subst hc
    rw [dirHeadL, List.reverse_cons, List.dropWhile_append]
    split
    · constructor <;> simp [isabsL, List.dropWhile_cons]
    · rw [List.reverse_append]
      constructor
      · simp [isabsL, List.dropWhile_cons]
      · simp [List.dropWhile_cons]

/-- The dirname of an absolute path is absolute. -/
theorem dirnameL_abs {p : List Char} (h : isabsL p = true) :
    isabsL (dirnameL p) = true := by
  obtain ⟨hh, hne⟩ := dirHeadL_abs h
  rw [dirnameL]
  split
  · next hany =>
    rcases List.any_eq_true.mp hany with ⟨x, hxm, hxne⟩
    obtain ⟨c, h1, hhead⟩ : ∃ c h1, dirHeadL p = c :: h1 := by
      cases hd : dirHeadL p with
      | nil => exact absurd hd hne
      | cons c h1 => exact ⟨c, h1, rfl⟩
    have hc : c = '/' := by
      rw [hhead] at hh
      simpa [isabsL] using hh
    subst hc
    have hxslash : ¬ x = '/' := by simpa using hxne
    have hxh1 : x ∈ h1 := by
      rw [hhead] at hxm
      rcases List.mem_cons.mp hxm with rfl | hm
      · exact absurd rfl hxslash
      · exact hm
    have hne2 : List.dropWhile (fun c => c == '/') h1.reverse ≠ [] :=
      dropWhile_ne_nil_of_mem _ (List.mem_reverse.mpr hxh1) (by simpa using hxslash)
    rw [hhead, List.reverse_cons, List.dropWhile_append,
      if_neg (by simpa [List.isEmpty_iff] using hne2), List.reverse_append]
    simp [isabsL]
  · exact hh

/-- An absolute path keeps at least one leading separator in normpath. -/
theorem initialSlashesL_pos {p : List Char} (h : isabsL p = true) :
    1 ≤ initialSlashesL p := by
  rw [initialSlashesL, if_pos h]
  split <;> omega

/-- The normpath of an absolute path is absolute. -/
theorem normpathL_abs {p : List Char} (h : isabsL p = true) :
    isabsL (normpathL p) = true := by
  have hne : ¬ p = [] := by
    cases p with
    | nil => simp [isabsL] at h
    | cons c t => simp
  rw [normpathL, if_neg hne]
  obtain ⟨m, hm⟩ : ∃ m, initialSlashesL p = m + 1 :=
    ⟨initialSlashesL p - 1, by have := initialSlashesL_pos h; omega⟩
  simp only [hm, List.replicate_succ, List.cons_append]
  rw [if_neg (by simp)]
  simp [isabsL]

/-- The formatting fold collects exactly the specification-side block of
each entry, in order, after the accumulator. -/
theorem formatBlocks_fold (fs : FS) (results : List (String × Entry)) :
    ∀ acc : List String,
      results.foldl (fun files pe =>
        match pe.2 with
        | Entry.error _ => files
        | Entry.success _ _ _ _ =>
          match List.lookup pe.1 fs with
          | some pf => files ++ ["## " ++ pe.1 ++ "\n" ++ pf.content]
          | none => files) acc
      = acc ++ results.filterMap (blockOf fs) := by
  induction results with
  | nil => intro acc; simp
  | cons pe rest ih =>
    intro acc
    rw [List.foldl_cons, List.filterMap_cons]
    obtain ⟨p, e⟩ := pe
    cases e with
    | error msg =>
      rw [ih]
      simp [blockOf]
    | success imps funs sz ln =>
      cases hl : List.lookup p fs with
      | none =>
        rw [ih]
        simp [blockOf, hl]
      | some pf =>
        rw [ih]
        simp [blockOf, hl]

end Crawler

namespace Crawler

/-- C1 (amended): for each extracted import the crawl builds exactly the
four candidate paths of possible_paths in their fixed order; the
resolution returns a candidate exactly when it is the first one of the
list that exists on disk and is unvisited; some eligible candidate
guarantees a resolution; with no existing candidate the import resolves
to nothing and is dropped silently; a processing iteration enqueues
precisely the per-import resolutions, in import order; and in the
order-discriminating filesystem the first eligible candidate beats both
the eligible current-directory candidate and the eligible raw-name
candidate, which never enter the result (although an unresolved module
name string may still coincide with a key recorded by resolving another
import). -/
theorem c1_candidate_resolution (fs : FS) (visited : List String) (base cur imp : String) :
    possiblePaths base cur imp =
      [ pjoin base (String.mk (replaceDotL imp.data) ++ ".py"),
        pjoin (dirname cur) (String.mk (replaceDotL imp.data) ++ ".py"),
        pjoin base (imp ++ ".py"),
        pjoin (dirname cur) (imp ++ ".py") ] ∧
    (∀ q : String, resolveImport fs visited base cur imp = some q ↔
      ((pathExists fs q = true ∧ ¬ q ∈ visited) ∧
        ∃ l1 l2, possiblePaths base cur imp = l1 ++ q :: l2 ∧
          ∀ x ∈ l1, ¬ (pathExists fs x = true ∧ ¬ x ∈ visited))) ∧
    ((∃ q ∈ possiblePaths base cur imp, pathExists fs q = true ∧ ¬ q ∈ visited) →
      ∃ q, resolveImport fs visited base cur imp = some q) ∧
    ((∀ q ∈ possiblePaths base cur imp, pathExists fs q = false) →
      resolveImport fs visited base cur imp = none) ∧
    (∀ (st : CrawlState) (p : String) (rest : List String) (pf : PyFile) (root : Node),
      st.queue = p :: rest → ¬ p ∈ st.visited → List.lookup p fs = some pf →
      strEndsWith p ".py" = true → pf.parse = Except.ok root →
      (stepOnce fs base st).queue =
        rest ++ (extract_imports pf.content.data root).filterMap
          (resolveImport fs (p :: st.visited) base p)) ∧
    (walk_directory fsOrder "/" "sub/a.py" (some "/r") = resultOrder ∧
      resolveImport fsOrder ["/r/sub/a.py"] "/r" "/r/sub/a.py" "m" = some "/r/m.py" ∧
      resolveImport fsOrder ["/r/sub/a.py"] "/r" "/r/sub/a.py" "p.q" = some "/r/p/q.py" ∧
      pathExists fsOrder "/r/sub/m.py" = true ∧
      pathExists fsOrder "/r/p.q.py" = true ∧
      ¬ "/r/sub/m.py" ∈ (walk_directory fsOrder "/" "sub/a.py" (some "/r")).map Prod.fst ∧
      ¬ "/r/p.q.py" ∈ (walk_directory fsOrder "/" "sub/a.py" (some "/r")).map Prod.fst) := by
  have hpred : ∀ x : String,
      (pathExists fs x && decide (¬ x ∈ visited)) = true ↔
      (pathExists fs x = true ∧ ¬ x ∈ visited) := by
    intro x
    rw [Bool.and_eq_true, decide_eq_true_eq]
  refine ⟨rfl, ?_, ?_, ?_, ?_, ?_⟩
  · intro q
    rw [resolveImport, List.find?_eq_some]
    constructor
    · rintro ⟨hq, l1, l2, heq, hall⟩
      refine ⟨(hpred q).mp hq, l1, l2, heq, ?_⟩
      intro x hx hcon
      have h2 := hall x hx
      have h3 := (hpred x).mpr hcon
      rw [h3] at h2
      simp at h2
    · rintro ⟨hq, l1, l2, heq, hall⟩
      refine ⟨(hpred q).mpr hq, l1, l2, heq, ?_⟩
      intro x hx
      cases hpx : (pathExists fs x && decide (¬ x ∈ visited)) with
      | false => rfl
      | true => exact absurd ((hpred x).mp hpx) (hall x hx)
  · rintro ⟨q, hq, helig⟩
    cases hres : resolveImport fs visited base cur imp with
    | some q2 => exact ⟨q2, rfl⟩
    | none =>
      rw [resolveImport, List.find?_eq_none] at hres
      exact absurd ((hpred q).mpr helig) (hres q hq)
  · intro hall
    rw [resolveImport, List.find?_eq_none]
    intro q hq
    simp [hall q hq]
  · intro st p rest pf root hq hv hl hpy hparse
    obtain ⟨v, qq, res⟩ := st
    have hq2 : qq = p :: rest := hq
    subst hq2
    have hv2 : ¬ p ∈ v := hv
    simp only [stepOnce, if_neg hv2, hl, hpy, if_true, hparse]
  · exact ⟨by decide, by decide, by decide, by decide, by decide, by decide, by decide⟩

/-- C1 witness: the unresolvable import of fs1 resolves to nothing; in
the order-discriminating filesystem the import m has an eligible
candidate and hence some resolution; and the first genuine iteration of
that crawl enqueues exactly the per-import resolutions of the seed. -/
theorem c1_candidate_resolution_witness :
    resolveImport fs1 [] "" "a.py" "x.py" = none ∧
    (∃ q, resolveImport fsOrder ["/r/sub/a.py"] "/r" "/r/sub/a.py" "m" = some q) ∧
    (stepOnce fsOrder "/r" (initState "/r" "sub/a.py")).queue =
      [] ++ (extract_imports aOrderContent.data treeAOrder).filterMap
        (resolveImport fsOrder ["/r/sub/a.py"] "/r" "/r/sub/a.py") := by
  refine ⟨?_, ?_, ?_⟩
  · exact (c1_candidate_resolution fs1 [] "" "a.py" "x.py").2.2.2.1 (by decide)
  · exact (c1_candidate_resolution fsOrder ["/r/sub/a.py"] "/r" "/r/sub/a.py" "m").2.2.1
      ⟨"/r/m.py", by decide, by decide, by decide⟩
  · exact (c1_candidate_resolution fsOrder ["/r/sub/a.py"] "/r" "/r/sub/a.py" "m").2.2.2.2.1
      (initState "/r" "sub/a.py") "/r/sub/a.py" [] pfAOrder treeAOrder
      (by decide) (by decide) rfl (by decide) rfl

/-- C1 counterexample: the import name "x.py" of the seed of fs1 is
unresolved (none of its four candidates exists on disk), yet the string
"x.py" appears as a key of the returned result, because the distinct
name "x" of the same file resolves to the path "x.py". -/
theorem c1_unresolved_key_counterexample :
    walk_directory fs1 "/" "a.py" (some "") =
      [("a.py", Entry.success ["x", "x.py"] [] 20 2),
       ("x.py", Entry.success [] [] 5 1)] ∧
    (∀ q ∈ possiblePaths "" "a.py" "x.py", pathExists fs1 q = false) ∧
    "x.py" ∈ (walk_directory fs1 "/" "a.py" (some "")).map Prod.fst := by
  exact ⟨by decide, by decide, by decide⟩

/-- C2: when parsing or reading a dequeued file raises, the iteration
records the failure reason under that path, performs no import resolution
for it (the queue becomes exactly the remaining items), and the crawl
continues with the rest of the queue instead of aborting. -/
theorem c2_parse_failure (fs : FS) (base : String) (st : CrawlState) (p : String)
    (rest : List String) (pf : PyFile) (msg : String) (n : Nat)
    (hq : st.queue = p :: rest) (hv : ¬ p ∈ st.visited)
    (hl : List.lookup p fs = some pf) (hpy : strEndsWith p ".py" = true)
    (hparse : pf.parse = Except.error msg) :
    stepOnce fs base st =
      { visited := p :: st.visited, queue := rest,
        result := dictInsert st.result p (Entry.error msg) } ∧
    crawlSteps fs base (n + 1) st =
      crawlSteps fs base n
        { visited := p :: st.visited, queue := rest,
          result := dictInsert st.result p (Entry.error msg) } := by
  obtain ⟨v, q, res⟩ := st
  have hq2 : q = p :: rest := hq
  subst hq2
  have hv2 : ¬ p ∈ v := hv
  have hstep : stepOnce fs base ⟨v, p :: rest, res⟩ =
      ⟨p :: v, rest, dictInsert res p (Entry.error msg)⟩ := by
    simp only [stepOnce, if_neg hv2, hl, hpy, if_true, hparse]
  refine ⟨hstep, ?_⟩
  rw [crawlSteps]
  rw [if_neg (by simp), hstep]

/-- C2 witness: the single-file filesystem with a failing parse records
the error entry and leaves the queue empty. -/
theorem c2_parse_failure_witness :
    stepOnce fs2 "" (initState "" "bad.py") =
      { visited := ["bad.py"], queue := [],
        result := [("bad.py", Entry.error "ParseError: invalid syntax")] } ∧
    crawlSteps fs2 "" 1 (initState "" "bad.py") =
      crawlSteps fs2 "" 0
        { visited := ["bad.py"], queue := [],
          result := [("bad.py", Entry.error "ParseError: invalid syntax")] } :=
  c2_parse_failure fs2 "" (initState "" "bad.py") "bad.py" []
    ⟨Except.error "ParseError: invalid syntax", "@@"⟩ "ParseError: invalid syntax" 0
    (by decide) (by decide) rfl (by decide) rfl

/-- C3: a loop iteration preserves the invariant that the recorded keys
are distinct and already visited, so a path recorded once is never
re-recorded (a visited path is dequeued without processing); and in the
two-file cyclic filesystem the crawl terminates with exactly the entries
of the two files, once each, in visitation order. -/
theorem c3_visited_once :
    (∀ (fs : FS) (base : String) (st : CrawlState),
      (st.result.map Prod.fst).Nodup →
      (∀ k, k ∈ st.result.map Prod.fst → k ∈ st.visited) →
      ((stepOnce fs base st).result.map Prod.fst).Nodup ∧
      (∀ k, k ∈ (stepOnce fs base st).result.map Prod.fst →
        k ∈ (stepOnce fs base st).visited)) ∧
    walk_directory fsCycle "/" "a.py" (some "/r") = cycleResult := by
  constructor
  · intro fs base st hnd hsub
    obtain ⟨v, q, res⟩ := st
    have hnd2 : (res.map Prod.fst).Nodup := hnd
    have hsub2 : ∀ k, k ∈ res.map Prod.fst → k ∈ v := hsub
    cases q with
    | nil => exact ⟨hnd2, hsub2⟩
    | cons p rest =>
      by_cases hv : p ∈ v
      · simp only [stepOnce, if_pos hv]
        exact ⟨hnd2, hsub2⟩
      · have hpk : ¬ p ∈ res.map Prod.fst := fun hk => hv (hsub2 p hk)
        have hfresh : ∀ e : Entry,
            ((res ++ [(p, e)]).map Prod.fst).Nodup ∧
            (∀ k, k ∈ (res ++ [(p, e)]).map Prod.fst → k ∈ p :: v) := by
          intro e
          constructor
          · rw [List.map_append]
            simp only [List.map_cons, List.map_nil]
            rw [List.nodup_append]
            refine ⟨hnd2, by simp, ?_⟩
            intro a ha hb
            simp only [List.mem_singleton] at hb
            subst hb
            exact hpk ha
          · intro k hk
            rw [List.map_append] at hk
            rcases List.mem_append.mp hk with hk | hk
            · exact List.mem_cons_of_mem _ (hsub2 k hk)
            · simp only [List.map_cons, List.map_nil, List.mem_singleton] at hk
              subst hk
              exact List.mem_cons_self _ _
        cases hl : List.lookup p fs with
        | none =>
          simp only [stepOnce, if_neg hv, hl]
          exact ⟨hnd2, fun k hk => List.mem_cons_of_mem _ (hsub2 k hk)⟩
        | some pf =>
          cases hpy : strEndsWith p ".py" with
          | false =>
            simp only [stepOnce, if_neg hv, hl, hpy, Bool.false_eq_true, if_false]
            exact ⟨hnd2, fun k hk => List.mem_cons_of_mem _ (hsub2 k hk)⟩
          | true =>
            cases hparse : pf.parse with
            | error msg =>
              simp only [stepOnce, if_neg hv, hl, hpy, if_true, hparse]
              rw [dictInsert_fresh res p _ hpk]
              exact hfresh _
            | ok root =>
              simp only [stepOnce, if_neg hv, hl, hpy, if_true, hparse]
              rw [dictInsert_fresh res p _ hpk]
              exact hfresh _
  · decide

/-- C3 witness: the invariant preservation applied to a concrete state
whose single recorded key is already visited. -/
theorem c3_visited_once_witness :
    ((stepOnce [] "" ⟨["k.py"], [], [("k.py", Entry.error "m")]⟩).result.map Prod.fst).Nodup ∧
    (∀ k, k ∈ (stepOnce [] "" ⟨["k.py"], [], [("k.py", Entry.error "m")]⟩).result.map Prod.fst →
      k ∈ (stepOnce [] "" ⟨["k.py"], [], [("k.py", Entry.error "m")]⟩).visited) :=
  c3_visited_once.1 [] "" ⟨["k.py"], [], [("k.py", Entry.error "m")]⟩ (by decide) (by decide)

/-- C4: over any finite modelled filesystem the crawl terminates for
every seed file, base directory and working directory: the loop, run with
the measure-derived fuel, always reaches the empty queue and returns a
result. -/
theorem c4_termination (fs : FS) (cwd start : String) (bd : Option String) :
    (walk_directory_opt fs cwd start bd).isSome = true := by
  simp only [walk_directory_opt]
  exact crawlSteps_isSome fs (baseOf cwd start bd) _ _ (Nat.lt_succ_self _)

/-- C5: in the three-file scenario where the seed imports b with a
plain import and c with a from-import, the crawl records three error-free
entries in visitation order a, b, c, and the formatted output consists of
the three labeled blocks in that order joined by blank-line separators;
moreover an error entry contributes no block. -/
theorem c5_format_scenario :
    walk_directory fs5 "/" "a.py" (some "/r") = result5 ∧
    get_concatenated_files_to_analyze fs5 "/" "a.py" (some "/r") = out5 ∧
    (∀ (fs : FS) (p msg : String) (res : List (String × Entry)),
      formatBlocks fs ((p, Entry.error msg) :: res) = formatBlocks fs res) := by
  exact ⟨by decide, by decide, fun fs p msg res => rfl⟩

/-- C6: extract_imports equals the specification-side full pre-order
collection, which returns module names in document order with duplicates
preserved, collects the text of every direct dotted_name child of a
plain import statement, and collects only the first dotted_name token of a
from-import statement; on the concrete tree of "import a, b" followed by
"from a import x" it yields the duplicated, ordered list. -/
theorem c6_extract_imports :
    (∀ (src : List Char) (n : Node), extract_imports src n = importsSpec src n) ∧
    extract_imports contentC6.data treeC6 = ["a", "b", "a"] := by
  constructor
  · intro src n
    have h := (walk_imports_aux src (sizeOf n)).1 n le_rfl []
    simpa [extract_imports] using h
  · decide

/-- C7 (amended): the pending queue is initialised with the join of the
base directory and the seed file name; the entry is absolute whenever the
base directory is absolute or the seed name is absolute, and in
particular when the base directory is left unspecified and defaults to
the directory of the absolute seed path under an absolute working
directory; with an explicit relative base directory and relative seed the
entry is relative. -/
theorem c7_initial_queue (cwd start : String) (bd : Option String) :
    (initState (baseOf cwd start bd) start).queue = [pjoin (baseOf cwd start bd) start] ∧
    (isabs (baseOf cwd start bd) = true → isabs (pjoin (baseOf cwd start bd) start) = true) ∧
    (isabs start = true → isabs (pjoin (baseOf cwd start bd) start) = true) ∧
    (bd = none → isabs cwd = true → isabs (pjoin (baseOf cwd start bd) start) = true) := by
  refine ⟨rfl, ?_, ?_, ?_⟩
  · intro h
    exact pjoinL_abs_left h
  · intro h
    have heq : pjoin (baseOf cwd start bd) start = start := by
      rw [pjoin, pjoinL_abs_right h]
    rw [heq]
    exact h
  · rintro rfl h
    apply pjoinL_abs_left
    show isabsL (dirname (abspath cwd start)).data = true
    exact dirnameL_abs (normpathL_abs (pjoinL_abs_left h))

/-- C7 witness: with working directory "/w", seed "a.py" and no explicit
base directory the initial queue entry is absolute. -/
theorem c7_initial_queue_witness :
    isabs (pjoin (baseOf "/w" "a.py" none) "a.py") = true :=
  (c7_initial_queue "/w" "a.py" none).2.2.2 rfl (by decide)

/-- C7 counterexample: with the explicit relative base directory "d" and
seed "a.py" the initial queue entry is the relative path "d/a.py", not an
absolute path. -/
theorem c7_relative_seed_counterexample :
    (initState (baseOf "/w" "a.py" (some "d")) "a.py").queue = ["d/a.py"] ∧
    isabs "d/a.py" = false ∧
    isabs (pjoin (baseOf "/w" "a.py" (some "d")) "a.py") = false := by
  exact ⟨by decide, by decide, by decide⟩

/-- C8 (amended): a path that is already visited when dequeued is dropped
from the queue without any processing, re-parsing or re-recording; this
dequeue-time check is what guards against duplicates, since a visited
path can still sit in the queue. -/
theorem c8_visited_dequeue_skips (fs : FS) (base : String) (st : CrawlState)
    (p : String) (rest : List String)
    (hq : st.queue = p :: rest) (hv : p ∈ st.visited) :
    stepOnce fs base st = { st with queue := rest } := by
  obtain ⟨v, q, res⟩ := st
  have hq2 : q = p :: rest := hq
  subst hq2
  have hv2 : p ∈ v := hv
  simp [stepOnce, hv2]

/-- C8 witness: a visited queue head is dequeued and nothing else
changes. -/
theorem c8_visited_dequeue_skips_witness :
    stepOnce [] "" ⟨["q.py"], ["q.py"], []⟩ = ⟨["q.py"], [], []⟩ :=
  c8_visited_dequeue_skips [] "" ⟨["q.py"], ["q.py"], []⟩ "q.py" [] rfl (by decide)

/-- C8 counterexample: in the filesystem whose seed imports the same
module twice, the state reached after two genuine loop iterations has the
resolved path both in the visited set and still in the pending queue. -/
theorem c8_queue_visited_counterexample :
    (initState "/r" "a.py").queue ≠ [] ∧
    (stepOnce fs8 "/r" (initState "/r" "a.py")).queue ≠ [] ∧
    "/r/b.py" ∈ (stepOnce fs8 "/r" (stepOnce fs8 "/r" (initState "/r" "a.py"))).queue ∧
    "/r/b.py" ∈ (stepOnce fs8 "/r" (stepOnce fs8 "/r" (initState "/r" "a.py"))).visited := by
  exact ⟨by decide, by decide, by decide, by decide⟩

/-- C9: the crawl-and-format pipeline is deterministic on a fixed
filesystem: any two completing runs of the loop from the same state
return the same result and format to byte-identical text. -/
theorem c9_deterministic (fs : FS) (base : String) (n m : Nat) (st : CrawlState)
    (r1 r2 : List (String × Entry))
    (h1 : crawlSteps fs base n st = some r1) (h2 : crawlSteps fs base m st = some r2) :
    r1 = r2 ∧ formatResult fs r1 = formatResult fs r2 := by
  have heq : r1 = r2 := by
    rcases Nat.le_total n m with h | h
    · have h3 := crawlSteps_le fs base n m st r1 h h1
      rw [h3] at h2
      exact Option.some.inj h2
    · have h3 := crawlSteps_le fs base m n st r2 h h2
      rw [h3] at h1
      exact (Option.some.inj h1).symm
  exact ⟨heq, by rw [heq]⟩

/-- C9 witness: two runs of different fuels on the cyclic filesystem
agree. -/
theorem c9_deterministic_witness :
    cycleResult = cycleResult ∧
    formatResult fsCycle cycleResult = formatResult fsCycle cycleResult :=
  c9_deterministic fsCycle "/r" 10 12 (initState "/r" "a.py") cycleResult cycleResult
    (by decide) (by decide)

/-- C10: the emitted blocks are exactly the specification-side blocks of
the entries in order, where a success entry whose path no longer exists
at format time contributes nothing and raises nothing; concretely, after
b vanishes between crawl and format, only the block of a remains. -/
theorem c10_vanished_file :
    (∀ (fs : FS) (res : List (String × Entry)),
      formatBlocks fs res = res.filterMap (blockOf fs)) ∧
    walk_directory fs10 "/" "a.py" (some "/r") =
      [("/r/a.py", Entry.success ["b"] [] 8 1), ("/r/b.py", Entry.success [] [] 5 1)] ∧
    formatResult fs10gone (walk_directory fs10 "/" "a.py" (some "/r")) =
      "## /r/a.py\nimport b" ∧
    formatResult fs10 (walk_directory fs10 "/" "a.py" (some "/r")) =
      "## /r/a.py\nimport b\n\n## /r/b.py\nB = 1" := by
  refine ⟨?_, by decide, by decide, by decide⟩
  intro fs res
  have h := formatBlocks_fold fs res []
  simpa [formatBlocks] using h

end Crawler
